import Mathlib

/-!
Verification of the libstatsite metrics aggregation engine against its
natural-language specification.

The repository ships interface headers (counter.h, metrics.h); the function
bodies are not part of the source tree, so every operation below is modelled
from the specification of its declared contract.  Doubles are embedded as
exact rationals (ℚ), u64 counters and timestamps as ℕ, and the C hashmaps as
association lists keyed by name.
-/

namespace statsite

/-- The counter accumulator of counter.h: count of items, sum of the values,
sum of the squared values, minimum and maximum value.  `count` is a u64 in C,
embedded as ℕ; the double fields are embedded as ℚ. -/
structure counter where
  count : ℕ
  sum : ℚ
  squared_sum : ℚ
  min : ℚ
  max : ℚ
  deriving Repr, DecidableEq

/-- Modelled from the spec: `init_counter` (body absent from src/) produces the
zeroed accumulator; no sample has been observed, so min/max are considered
undefined while `count = 0`. -/
def init_counter : counter :=
  { count := 0, sum := 0, squared_sum := 0, min := 0, max := 0 }

/-- Modelled from the spec: `counter_add_sample` (body absent from src/)
updates count, sum, squared_sum, min, max in O(1).  The first sample seeds
min and max, so the initial slot contents never leak into an observed
minimum or maximum. -/
def counter_add_sample (c : counter) (sample : ℚ) : counter :=
  { count := c.count + 1,
    sum := c.sum + sample,
    squared_sum := c.squared_sum + sample * sample,
    min := if c.count = 0 then sample else min c.min sample,
    max := if c.count = 0 then sample else max c.max sample }

/-- Direct field read of the number of samples. -/
def counter_count (c : counter) : ℕ := c.count

/-- Direct field read of the sum. -/
def counter_sum (c : counter) : ℚ := c.sum

/-- Direct field read of the sum of squares. -/
def counter_squared_sum (c : counter) : ℚ := c.squared_sum

/-- Direct field read of the minimum value. -/
def counter_min (c : counter) : ℚ := c.min

/-- Direct field read of the maximum value. -/
def counter_max (c : counter) : ℚ := c.max

/-- Modelled from the spec: `counter_mean` (body absent from src/) is
`sum / count`, and signals an explicit undefined result when `count = 0`. -/
def counter_mean (c : counter) : Option ℚ :=
  if c.count = 0 then none else some (c.sum / (c.count : ℚ))

/-- Modelled from the spec: the unbiased sample variance
`(squared_sum - sum^2 / count) / (count - 1)`, clamped to be non-negative to
absorb floating-point cancellation; undefined when `count < 2`. -/
def counter_variance (c : counter) : Option ℚ :=
  if c.count < 2 then none
  else some (max 0 ((c.squared_sum - c.sum ^ 2 / (c.count : ℚ)) / ((c.count : ℚ) - 1)))

/-- Modelled from the spec: `counter_stddev` (body absent from src/) is the
square root of the clamped unbiased sample variance; undefined when
`count < 2`. -/
noncomputable def counter_stddev (c : counter) : Option ℝ :=
  (counter_variance c).map (fun v : ℚ => Real.sqrt (v : ℝ))

/-- Folding a list of samples into a counter, sample by sample. -/
def counter_add_all (c : counter) (vs : List ℚ) : counter :=
  vs.foldl counter_add_sample c

theorem counter_add_all_nil (c : counter) : counter_add_all c [] = c := rfl

theorem counter_add_all_cons (c : counter) (v : ℚ) (vs : List ℚ) :
    counter_add_all c (v :: vs) = counter_add_all (counter_add_sample c v) vs := rfl

theorem counter_add_all_count (vs : List ℚ) (c : counter) :
    (counter_add_all c vs).count = c.count + vs.length := by
  induction vs generalizing c with
  | nil => simp [counter_add_all]
  | cons v vs ih =>
      rw [counter_add_all_cons, ih]
      simp [counter_add_sample]
      omega

theorem counter_add_sample_min_le (c : counter) (v : ℚ) :
    (counter_add_sample c v).min ≤ v := by
  simp only [counter_add_sample]
  split
  · exact le_refl v
  · exact min_le_right _ _

theorem counter_add_sample_le_max (c : counter) (v : ℚ) :
    v ≤ (counter_add_sample c v).max := by
  simp only [counter_add_sample]
  split
  · exact le_refl v
  · exact le_max_right _ _

theorem counter_add_sample_count_pos (c : counter) (v : ℚ) :
    (counter_add_sample c v).count ≠ 0 := by
  simp [counter_add_sample]

theorem counter_add_all_min_mono (vs : List ℚ) (c : counter) (h : c.count ≠ 0) :
    (counter_add_all c vs).min ≤ c.min ∧ c.max ≤ (counter_add_all c vs).max := by
  induction vs generalizing c with
  | nil => exact ⟨le_refl _, le_refl _⟩
  | cons v vs ih =>
      rw [counter_add_all_cons]
      have step := ih (counter_add_sample c v) (counter_add_sample_count_pos c v)
      constructor
      · refine le_trans step.1 ?_
        simp only [counter_add_sample, if_neg h]
        exact min_le_left _ _
      · refine le_trans ?_ step.2
        simp only [counter_add_sample, if_neg h]
        exact le_max_left _ _

theorem counter_add_all_bounds (vs : List ℚ) (c : counter) (x : ℚ) (hx : x ∈ vs) :
    (counter_add_all c vs).min ≤ x ∧ x ≤ (counter_add_all c vs).max := by
  induction vs generalizing c with
  | nil => cases hx
  | cons v vs ih =>
      rw [counter_add_all_cons]
      rcases List.mem_cons.mp hx with hxv | hxvs
      · subst hxv
        rcases List.eq_nil_or_concat vs with hnil | _
        · subst hnil
          exact ⟨counter_add_sample_min_le c x, counter_add_sample_le_max c x⟩
        · have mono := counter_add_all_min_mono vs (counter_add_sample c x)
            (counter_add_sample_count_pos c x)
          exact ⟨le_trans mono.1 (counter_add_sample_min_le c x),
            le_trans (counter_add_sample_le_max c x) mono.2⟩
      · exact ih (counter_add_sample c v) hxvs

/-- C3: for every sequence of counter_add_sample calls, min is at most every
added sample, max is at least every added sample, and count equals exactly
the number of calls made. -/
theorem claim_C3_counter_invariants (vs : List ℚ) :
    (∀ x ∈ vs, counter_min (counter_add_all init_counter vs) ≤ x ∧
      x ≤ counter_max (counter_add_all init_counter vs)) ∧
    counter_count (counter_add_all init_counter vs) = vs.length := by
  refine ⟨fun x hx => ?_, ?_⟩
  · exact counter_add_all_bounds vs init_counter x hx
  · rw [counter_count, counter_add_all_count]
    simp [init_counter]

/-- The counter obtained by adding the samples 1, 2, 3, 4, 5 in order. -/
def sample_counter_12345 : counter :=
  counter_add_all init_counter [1, 2, 3, 4, 5]

/-- C1: for every counter with count >= 2, counter_stddev returns the square
root of the unbiased sample variance (squared_sum - sum^2/count)/(count - 1),
clamped to be non-negative before the root; and after adding the samples
1,2,3,4,5 the counter reads count=5, sum=15, squared_sum=55, mean=3, min=1,
max=5, and stddev=sqrt(2.5). -/
theorem claim_C1_stddev :
    (∀ c : counter, 2 ≤ c.count →
      counter_stddev c =
        some (Real.sqrt
          ((max 0 ((c.squared_sum - c.sum ^ 2 / (c.count : ℚ)) / ((c.count : ℚ) - 1)) : ℚ) : ℝ))) ∧
    (counter_count sample_counter_12345 = 5 ∧
     counter_sum sample_counter_12345 = 15 ∧
     counter_squared_sum sample_counter_12345 = 55 ∧
     counter_mean sample_counter_12345 = some 3 ∧
     counter_min sample_counter_12345 = 1 ∧
     counter_max sample_counter_12345 = 5 ∧
     counter_stddev sample_counter_12345 = some (Real.sqrt ((5 : ℝ) / 2))) := by
  constructor
  · intro c hc
    have hnot : ¬ c.count < 2 := by omega
    simp [counter_stddev, counter_variance, hnot]
  · have hfold : sample_counter_12345 =
        { count := 5, sum := 15, squared_sum := 55, min := 1, max := 5 } := by
      simp only [sample_counter_12345, counter_add_all, List.foldl,
        counter_add_sample, init_counter]
      norm_num
    have hvar : counter_variance sample_counter_12345 = some (5 / 2) := by
      rw [hfold]
      simp only [counter_variance]
      norm_num
    rw [hfold]
    refine ⟨rfl, rfl, rfl, by norm_num [counter_mean], rfl, rfl, ?_⟩
    rw [counter_stddev, ← hfold, hvar]
    simp only [Option.map_some']
    congr 1
    norm_num

/-- Witness for C1 at a concrete counter with count = 2. -/
theorem claim_C1_witness :
    counter_stddev { count := 2, sum := 3, squared_sum := 5, min := 1, max := 2 } =
      some (Real.sqrt
        ((max 0 ((5 - (3 : ℚ) ^ 2 / ((2 : ℕ) : ℚ)) / (((2 : ℕ) : ℚ) - 1)) : ℚ) : ℝ)) :=
  claim_C1_stddev.1 { count := 2, sum := 3, squared_sum := 5, min := 1, max := 2 } (by norm_num)

/-- C9: counter_mean on an empty counter and counter_stddev on a counter with
fewer than two samples signal an explicit undefined result (the none branch of
Option), distinguishable from every ordinary numeric result. -/
theorem claim_C9_undefined (c : counter) :
    (c.count = 0 → counter_mean c = none ∧ ∀ q : ℚ, counter_mean c ≠ some q) ∧
    (c.count < 2 → counter_stddev c = none ∧ ∀ r : ℝ, counter_stddev c ≠ some r) := by
  constructor
  · intro h0
    have hm : counter_mean c = none := by simp [counter_mean, h0]
    exact ⟨hm, fun q hq => by rw [hm] at hq; cases hq⟩
  · intro h2
    have hs : counter_stddev c = none := by
      simp [counter_stddev, counter_variance, h2]
    exact ⟨hs, fun r hr => by rw [hs] at hr; cases hr⟩

/-- Witness for C9 at the freshly initialized counter. -/
theorem claim_C9_witness :
    counter_mean init_counter = none ∧ counter_stddev init_counter = none :=
  ⟨((claim_C9_undefined init_counter).1 rfl).1,
   ((claim_C9_undefined init_counter).2 (by decide)).1⟩

/-- C10: immediately after init_counter the count reads 0, and after exactly
one sample v on a fresh counter both counter_min and counter_max read v for
every rational v, positive or negative: the initial min/max slot contents are
never observed. -/
theorem claim_C10_first_sample :
    counter_count init_counter = 0 ∧
    ∀ v : ℚ, counter_min (counter_add_sample init_counter v) = v ∧
      counter_max (counter_add_sample init_counter v) = v := by
  refine ⟨rfl, fun v => ⟨?_, ?_⟩⟩
  · simp [counter_min, counter_add_sample, init_counter]
  · simp [counter_max, counter_add_sample, init_counter]

/-- The metric type enum of metrics.h (the variant with explicit values and
GAUGE_DELTA). -/
inductive metric_type where
  | UNKNOWN
  | KEY_VAL
  | COUNTER
  | TIMER
  | SET
  | GAUGE
  | GAUGE_DELTA
  deriving Repr, DecidableEq

/-- A key_val node of metrics.h; the linked list is embedded as a Lean list
in insertion order. -/
structure key_val where
  name : String
  val : ℚ
  deriving Repr, DecidableEq

/-- A histogram configuration: a name pattern (matched by prefix) and its
ordered bucket boundaries.  Stands in for histogram_config of config.h, which
is not part of the source tree. -/
structure histogram_config where
  pattern : String
  bounds : List ℚ
  deriving Repr, DecidableEq

/-- The timer_hist struct of metrics.h: the timer samples plus the optional
histogram support (cached config and bucket counts). -/
structure timer_hist where
  samples : List ℚ
  conf : Option histogram_config
  counts : List ℕ
  deriving Repr, DecidableEq

/-- The gauge struct of metrics.h (timestamped variant). -/
structure gauge where
  value : ℚ
  prev_value : ℚ
  user : ℕ
  user_flags : ℕ
  timestamp_ms : ℕ
  deriving Repr, DecidableEq

/-- Modelled from the spec: a 64-bit string hash used by the register phase
of the cardinality estimator (the body of the hashing code is absent from
src/). -/
def hash_str (s : String) : ℕ :=
  s.toList.foldl (fun h ch => (h * 31 + ch.toNat) % 2 ^ 64) 5381

/-- Position (1-based) of the lowest set bit of n, with 64 bits of fuel;
returns 64 when no bit is set within the fuel. -/
def hll_rho : ℕ → ℕ → ℕ
  | 0, _ => 64
  | Nat.succ fuel, n => if n % 2 = 1 then 1 else hll_rho fuel (n / 2) + 1

/-- Modelled from the spec: stochastic-averaging register update — the top
precision bits of the hash select a register, the position of the lowest set
bit of the remaining bits updates that register to the max observed run
length. -/
def hll_register_update (precision : ℕ) (regs : List ℕ) (v : String) : List ℕ :=
  let h := hash_str v
  let idx := h / 2 ^ (64 - precision)
  let rest := h % 2 ^ (64 - precision)
  regs.set idx (max (regs.getD idx 0) (hll_rho 64 rest))

/-- Modelled from the spec: the two-phase cardinality estimator (set.h body
absent from src/): an exact distinct-value list while small, and
2^precision probabilistic registers after conversion. -/
inductive set_t where
  | exact (elems : List String)
  | approx (registers : List ℕ)
  deriving Repr, DecidableEq

/-- A freshly created cardinality estimator: the empty exact phase. -/
def set_init : set_t := set_t.exact []

/-- Conversion to the approximate phase: hash every stored value into the
2^precision registers and discard the exact set. -/
def hll_convert (precision : ℕ) (elems : List String) : List ℕ :=
  elems.foldl (hll_register_update precision) (List.replicate (2 ^ precision) 0)

/-- Modelled from the spec: add_value for the cardinality estimator.  In the
exact phase a duplicate is a no-op; a new value that would push the exact
size beyond set_max_exact triggers the irreversible conversion; in the
approximate phase the registers are updated. -/
def set_add (set_max_exact precision : ℕ) (s : set_t) (v : String) : set_t :=
  match s with
  | set_t.exact elems =>
      if v ∈ elems then set_t.exact elems
      else if set_max_exact < elems.length + 1 then
        set_t.approx (hll_convert precision (v :: elems))
      else set_t.exact (v :: elems)
  | set_t.approx regs => set_t.approx (hll_register_update precision regs v)

/-- Modelled from the spec: cardinality() — the exact set size in the exact
phase, and the raw harmonic-mean register estimate in the approximate
phase. -/
def set_cardinality (s : set_t) : ℚ :=
  match s with
  | set_t.exact elems => (elems.length : ℚ)
  | set_t.approx regs =>
      ((7213 : ℚ) / 10000) / (1 + (1079 : ℚ) / 1000 / (regs.length : ℚ)) *
        (regs.length : ℚ) ^ 2 / (regs.foldl (fun acc r => acc + 1 / 2 ^ r) 0)

/-- Whether the estimator is still in the exact phase. -/
def set_is_exact : set_t → Bool
  | set_t.exact _ => true
  | set_t.approx _ => false

/-- Folding a sequence of added values into a cardinality estimator. -/
def set_add_all (set_max_exact precision : ℕ) (s : set_t) (vs : List String) : set_t :=
  vs.foldl (set_add set_max_exact precision) s

/-- The number of distinct values in a list. -/
def distinct_count (vs : List String) : ℕ := vs.dedup.length

/-- Lookup by name in an association-list embedding of the C hashmap. -/
def hm_lookup {α : Type} : List (String × α) → String → Option α
  | [], _ => none
  | p :: rest, k => if p.1 = k then some p.2 else hm_lookup rest k

/-- Replace the value stored under an existing key. -/
def hm_set {α : Type} (l : List (String × α)) (k : String) (v : α) : List (String × α) :=
  l.map (fun p => if p.1 = k then (k, v) else p)

/-- The stored keys, in storage order. -/
def hm_keys {α : Type} (l : List (String × α)) : List String :=
  l.map Prod.fst

/-- Lookup-or-create update: the hashmap pattern used by the Orchestrator for
every ingestion path — fetch the named aggregate, create it on first
occurrence, and store the updated aggregate back. -/
def hm_upsert {α : Type} (l : List (String × α)) (k : String) (f : Option α → α) :
    List (String × α) :=
  match hm_lookup l k with
  | some v => hm_set l k (f (some v))
  | none => l ++ [(k, f none)]

/-- The metrics struct of metrics.h: one name index per metric type, the
key-value list, the immutable configuration, and the (non-owned) histogram
configuration lookup, embedded as a list of configs. -/
structure metrics where
  counters : List (String × counter)
  timers : List (String × timer_hist)
  sets : List (String × set_t)
  gauges : List (String × gauge)
  kv_vals : List key_val
  timer_eps : ℚ
  quantiles : List ℚ
  histograms : List histogram_config
  set_precision : ℕ
  set_max_exact : ℕ
  deriving Repr, DecidableEq

/-- Modelled from the spec: the radix-tree histogram lookup (radix.h body
absent from src/) returns the most specific — longest — configured pattern
that is a prefix of the metric name, or none. -/
def radix_longest_match (cfgs : List histogram_config) (name : String) :
    Option histogram_config :=
  cfgs.foldl
    (fun best c =>
      if c.pattern.isPrefixOf name then
        match best with
        | none => some c
        | some b => if b.pattern.length < c.pattern.length then some c else some b
      else best)
    none

/-- A freshly created timer, with bucket counts allocated when a histogram
config was resolved for its name. -/
def timer_hist_init (conf : Option histogram_config) : timer_hist :=
  { samples := [],
    conf := conf,
    counts :=
      match conf with
      | none => []
      | some c => List.replicate (c.bounds.length + 1) 0 }

/-- The histogram bucket holding a value: the number of boundaries at or
below it, so values beyond the configured range accumulate in the first or
last bucket. -/
def timer_bucket (bounds : List ℚ) (v : ℚ) : ℕ :=
  bounds.countP (fun b => decide (b ≤ v))

/-- Modelled from the spec: adding a timer sample records the sample and,
when histogram support is present, increments the bucket containing it. -/
def timer_hist_add (t : timer_hist) (v : ℚ) : timer_hist :=
  { samples := t.samples ++ [v],
    conf := t.conf,
    counts :=
      match t.conf with
      | none => t.counts
      | some c => t.counts.set (timer_bucket c.bounds v)
          (t.counts.getD (timer_bucket c.bounds v) 0 + 1) }

/-- Modelled from the spec: the gauge created on first occurrence of a name —
value (0 + value when delta), prev_value equal to the value, and the supplied
metadata and timestamp. -/
def gauge_create (val : ℚ) (user user_flags ts : ℕ) : gauge :=
  { value := val, prev_value := val, user := user, user_flags := user_flags,
    timestamp_ms := ts }

/-- Modelled from the spec: the in-place gauge update applied when the new
timestamp is not older — prev_value takes the old value, the value is
replaced (or incremented when delta), and user, user_flags, timestamp_ms are
updated. -/
def gauge_update (g : gauge) (val : ℚ) (delta : Bool) (user user_flags ts : ℕ) : gauge :=
  { value := if delta then g.value + val else val,
    prev_value := g.value,
    user := user, user_flags := user_flags, timestamp_ms := ts }

/-- Modelled from the spec: metrics_set_gauge_ts (body absent from src/).
Creates the gauge on first occurrence; rejects an update whose timestamp is
older than the stored one without mutating any state, signalled by the
non-zero result; otherwise applies the gauge update.  The user_flags
argument follows the spec contract for the flagged variant. -/
def metrics_set_gauge_ts (m : metrics) (name : String) (val : ℚ) (delta : Bool)
    (user user_flags ts : ℕ) : metrics × Int :=
  match hm_lookup m.gauges name with
  | none => ({ m with gauges := m.gauges ++ [(name, gauge_create val user user_flags ts)] }, 0)
  | some g =>
      if ts < g.timestamp_ms then (m, 1)
      else ({ m with gauges := hm_set m.gauges name (gauge_update g val delta user user_flags ts) }, 0)

/-- Modelled from the spec: metrics_set_update (body absent from src/) routes
the value to the named cardinality estimator, creating it on first
occurrence. -/
def metrics_set_update (m : metrics) (name : String) (value : String) : metrics × Int :=
  ({ m with
      sets := hm_upsert m.sets name
        (fun old => set_add m.set_max_exact m.set_precision (old.getD set_init) value) }, 0)

/-- Modelled from the spec: metrics_add_sample (body absent from src/) routes
a sample to the counter, timer, set, or key-value structure for its type,
creating the aggregate on first occurrence (consulting the histogram lookup
for a new timer); other types are rejected with a non-zero result and no
mutation.  Sample-rate scaling is not modelled: counter.h declares the
unscaled counter_add_sample, and no claim concerns sample_rate. -/
def metrics_add_sample (m : metrics) (ty : metric_type) (name : String) (val : ℚ) :
    metrics × Int :=
  match ty with
  | metric_type.KEY_VAL =>
      ({ m with kv_vals := m.kv_vals ++ [{ name := name, val := val }] }, 0)
  | metric_type.COUNTER =>
      ({ m with
          counters := hm_upsert m.counters name
            (fun old => counter_add_sample (old.getD init_counter) val) }, 0)
  | metric_type.TIMER =>
      ({ m with
          timers := hm_upsert m.timers name
            (fun old => timer_hist_add
              (old.getD (timer_hist_init (radix_longest_match m.histograms name))) val) }, 0)
  | metric_type.SET =>
      ({ m with
          sets := hm_upsert m.sets name
            (fun old => set_add m.set_max_exact m.set_precision (old.getD set_init)
              (toString val.num ++ "/" ++ toString val.den)) }, 0)
  | _ => (m, 1)

/-- Modelled from the spec: metrics_clear_hash (body absent from src/)
releases all aggregates of the given type — or every index for UNKNOWN —
leaving everything else, including the non-owned histogram lookup,
untouched. -/
def metrics_clear_hash (m : metrics) (ty : metric_type) : metrics :=
  match ty with
  | metric_type.COUNTER => { m with counters := [] }
  | metric_type.TIMER => { m with timers := [] }
  | metric_type.SET => { m with sets := [] }
  | metric_type.GAUGE => { m with gauges := [] }
  | metric_type.GAUGE_DELTA => { m with gauges := [] }
  | metric_type.KEY_VAL => { m with kv_vals := [] }
  | metric_type.UNKNOWN =>
      { m with counters := [], timers := [], sets := [], gauges := [], kv_vals := [] }

/-- An ingestion operation of the Orchestrator: a typed sample, a set
update, or a timestamped gauge set. -/
inductive mop where
  | add_sample (ty : metric_type) (name : String) (val : ℚ)
  | set_update (name value : String)
  | set_gauge (name : String) (val : ℚ) (delta : Bool) (user user_flags ts : ℕ)

/-- The state transition of one ingestion operation (the returned status code
is dropped; a rejected operation leaves the state unchanged). -/
def metrics_apply (m : metrics) : mop → metrics
  | mop.add_sample ty name val => (metrics_add_sample m ty name val).1
  | mop.set_update name value => (metrics_set_update m name value).1
  | mop.set_gauge name val delta user user_flags ts =>
      (metrics_set_gauge_ts m name val delta user user_flags ts).1

/-- The state after a whole sequence of ingestion operations. -/
def metrics_apply_all (m : metrics) (ops : List mop) : metrics :=
  ops.foldl metrics_apply m

/-- The Orchestrator with empty indices and the given configuration. -/
def metrics_empty (timer_eps : ℚ) (quantiles : List ℚ) (histograms : List histogram_config)
    (set_precision set_max_exact : ℕ) : metrics :=
  { counters := [], timers := [], sets := [], gauges := [], kv_vals := [],
    timer_eps := timer_eps, quantiles := quantiles, histograms := histograms,
    set_precision := set_precision, set_max_exact := set_max_exact }

/-- Modelled from the spec: the smallest supported set precision (the exact
bound is not stated by the spec; only that the range is bounds-checked). -/
def HLL_MIN_PRECISION : ℕ := 4

/-- Modelled from the spec: the largest supported set precision. -/
def HLL_MAX_PRECISION : ℕ := 18

/-- Modelled from the spec: init_metrics (body absent from src/) validates
the quantile list (non-empty, each quantile strictly inside (0,1), sorted)
and the set precision, and fails without producing a partially initialized
metrics struct; on success every index starts empty and the configuration is
stored verbatim. -/
def init_metrics (timer_eps : ℚ) (quantiles : List ℚ) (histograms : List histogram_config)
    (set_precision set_max_exact : ℕ) : Option metrics :=
  if quantiles.length = 0 then none
  else if ¬ (∀ q ∈ quantiles, 0 < q ∧ q < 1) then none
  else if ¬ List.Chain' (fun a b => a ≤ b) quantiles then none
  else if set_precision < HLL_MIN_PRECISION ∨ HLL_MAX_PRECISION < set_precision then none
  else some (metrics_empty timer_eps quantiles histograms set_precision set_max_exact)

/-- The payload handed to the iteration callback, as a closed sum instead of
the C void pointer. -/
inductive metric_value where
  | kv (v : ℚ)
  | ctr (c : counter)
  | tmr (t : timer_hist)
  | st (s : set_t)
  | gg (g : gauge)
  deriving Repr, DecidableEq

/-- One visit of the iteration: the metric type, the name, and the payload. -/
structure metric_entry where
  ty : metric_type
  name : String
  val : metric_value
  deriving Repr, DecidableEq

/-- Modelled from the spec: the full enumeration metrics_iter walks — every
key-value entry in insertion order, then every counter, timer, set, and
gauge of the name indices (the order across types is an arbitrary fixed
choice; the spec leaves it unspecified). -/
def metrics_entries (m : metrics) : List metric_entry :=
  m.kv_vals.map (fun kv => ({ ty := metric_type.KEY_VAL, name := kv.name, val := metric_value.kv kv.val } : metric_entry)) ++
  m.counters.map (fun p => ({ ty := metric_type.COUNTER, name := p.1, val := metric_value.ctr p.2 } : metric_entry)) ++
  m.timers.map (fun p => ({ ty := metric_type.TIMER, name := p.1, val := metric_value.tmr p.2 } : metric_entry)) ++
  m.sets.map (fun p => ({ ty := metric_type.SET, name := p.1, val := metric_value.st p.2 } : metric_entry)) ++
  m.gauges.map (fun p => ({ ty := metric_type.GAUGE, name := p.1, val := metric_value.gg p.2 } : metric_entry))

/-- The visits actually performed for a callback: enumeration halts right
after the first visit whose callback result is non-zero. -/
def iter_visits (cb : metric_type → String → metric_value → Int) :
    List metric_entry → List metric_entry
  | [] => []
  | e :: es => if cb e.ty e.name e.val = 0 then e :: iter_visits cb es else [e]

/-- Modelled from the spec: metrics_iter (body absent from src/) invokes the
callback on the enumeration of all live aggregates, stopping early on a
non-zero return; the result is the list of visits made. -/
def metrics_iter (m : metrics) (cb : metric_type → String → metric_value → Int) :
    List metric_entry :=
  iter_visits cb (metrics_entries m)

theorem hm_lookup_append_left {α : Type} (l l2 : List (String × α)) (k : String) (v : α)
    (h : hm_lookup l k = some v) : hm_lookup (l ++ l2) k = some v := by
  induction l with
  | nil => simp [hm_lookup] at h
  | cons p rest ih =>
      rw [List.cons_append]
      rw [hm_lookup] at h ⊢
      by_cases hp : p.1 = k
      · simpa [hp] using h
      · rw [if_neg hp] at h ⊢
        exact ih h

theorem hm_lookup_append_none {α : Type} (l l2 : List (String × α)) (k : String)
    (h : hm_lookup l k = none) : hm_lookup (l ++ l2) k = hm_lookup l2 k := by
  induction l with
  | nil => simp
  | cons p rest ih =>
      rw [hm_lookup] at h
      by_cases hp : p.1 = k
      · simp [hp] at h
      · rw [if_neg hp] at h
        rw [List.cons_append, hm_lookup, if_neg hp]
        exact ih h

theorem hm_lookup_set_self {α : Type} (l : List (String × α)) (k : String) (v w : α)
    (h : hm_lookup l k = some w) : hm_lookup (hm_set l k v) k = some v := by
  induction l with
  | nil => simp [hm_lookup] at h
  | cons p rest ih =>
      rw [hm_lookup] at h
      by_cases hp : p.1 = k
      · simp [hm_set, hm_lookup, hp]
      · rw [if_neg hp] at h
        simpa [hm_set, hm_lookup, hp] using ih h

theorem hm_lookup_set_ne {α : Type} (l : List (String × α)) (k k2 : String) (v : α)
    (h : k2 ≠ k) : hm_lookup (hm_set l k v) k2 = hm_lookup l k2 := by
  induction l with
  | nil => simp [hm_set, hm_lookup]
  | cons p rest ih =>
      rw [hm_set, List.map_cons]
      by_cases hp : p.1 = k
      · rw [if_pos hp, hm_lookup, hm_lookup]
        have hkk2 : ¬ k = k2 := fun hk => h hk.symm
        have hpk2 : ¬ p.1 = k2 := by rw [hp]; exact hkk2
        rw [if_neg hkk2, if_neg hpk2]
        exact ih
      · rw [if_neg hp, hm_lookup, hm_lookup]
        by_cases hq : p.1 = k2
        · rw [if_pos hq, if_pos hq]
        · rw [if_neg hq, if_neg hq]
          exact ih

theorem hm_keys_set {α : Type} (l : List (String × α)) (k : String) (v : α) :
    hm_keys (hm_set l k v) = hm_keys l := by
  induction l with
  | nil => rfl
  | cons p rest ih =>
      by_cases hp : p.1 = k
      · simpa [hm_set, hm_keys, hp] using ih
      · simpa [hm_set, hm_keys, hp] using ih

theorem hm_lookup_none_iff {α : Type} (l : List (String × α)) (k : String) :
    hm_lookup l k = none ↔ k ∉ hm_keys l := by
  induction l with
  | nil => simp [hm_lookup, hm_keys]
  | cons p rest ih =>
      rw [hm_lookup, hm_keys, List.map_cons]
      by_cases hp : p.1 = k
      · simp [hp]
      · rw [if_neg hp, List.mem_cons]
        constructor
        · intro hk hmem
          rcases hmem with h1 | h2
          · exact hp h1.symm
          · exact (ih.mp hk) h2
        · intro hk
          exact ih.mpr (fun h2 => hk (Or.inr h2))

theorem hm_upsert_keys_of_some {α : Type} (l : List (String × α)) (k : String)
    (f : Option α → α) (v : α) (h : hm_lookup l k = some v) :
    hm_keys (hm_upsert l k f) = hm_keys l := by
  rw [hm_upsert, h, hm_keys_set]

theorem hm_upsert_keys_of_none {α : Type} (l : List (String × α)) (k : String)
    (f : Option α → α) (h : hm_lookup l k = none) :
    hm_keys (hm_upsert l k f) = hm_keys l ++ [k] := by
  rw [hm_upsert, h]
  simp [hm_keys]

theorem hm_upsert_nodup {α : Type} (l : List (String × α)) (k : String)
    (f : Option α → α) (h : (hm_keys l).Nodup) : (hm_keys (hm_upsert l k f)).Nodup := by
  cases hl : hm_lookup l k with
  | none =>
      rw [hm_upsert_keys_of_none l k f hl]
      have hk : k ∉ hm_keys l := (hm_lookup_none_iff l k).mp hl
      simpa [List.nodup_append] using ⟨h, hk⟩
  | some v =>
      rw [hm_upsert_keys_of_some l k f v hl]
      exact h

theorem hm_lookup_upsert_self {α : Type} (l : List (String × α)) (k : String)
    (f : Option α → α) : hm_lookup (hm_upsert l k f) k = some (f (hm_lookup l k)) := by
  cases hl : hm_lookup l k with
  | none =>
      rw [hm_upsert, hl, hm_lookup_append_none l _ k hl]
      simp [hm_lookup]
  | some v =>
      rw [hm_upsert, hl]
      exact hm_lookup_set_self l k _ v hl

theorem hm_lookup_upsert_ne {α : Type} (l : List (String × α)) (k k2 : String)
    (f : Option α → α) (h : k2 ≠ k) :
    hm_lookup (hm_upsert l k f) k2 = hm_lookup l k2 := by
  cases hl : hm_lookup l k with
  | none =>
      rw [hm_upsert, hl]
      cases hl2 : hm_lookup l k2 with
      | none =>
          rw [hm_lookup_append_none l _ k2 hl2]
          have hkk2 : ¬ k = k2 := fun hk => h hk.symm
          simp [hm_lookup, hkk2]
      | some w => exact hm_lookup_append_left l _ k2 w hl2
  | some v =>
      rw [hm_upsert, hl]
      exact hm_lookup_set_ne l k k2 _ h

theorem gauge_ts_step (m : metrics) (op : mop) (name : String) (g : gauge)
    (h : hm_lookup m.gauges name = some g) :
    ∃ g2, hm_lookup (metrics_apply m op).gauges name = some g2 ∧
      g.timestamp_ms ≤ g2.timestamp_ms := by
  cases op with
  | add_sample ty n v =>
      refine ⟨g, ?_, le_refl _⟩
      cases ty <;> simpa [metrics_apply, metrics_add_sample] using h
  | set_update n v =>
      exact ⟨g, by simpa [metrics_apply, metrics_set_update] using h, le_refl _⟩
  | set_gauge n v d u uf ts =>
      by_cases hn : name = n
      · subst hn
        by_cases hts : ts < g.timestamp_ms
        · refine ⟨g, ?_, le_refl _⟩
          simp [metrics_apply, metrics_set_gauge_ts, h, hts]
        · refine ⟨gauge_update g v d u uf ts, ?_, ?_⟩
          · simp only [metrics_apply, metrics_set_gauge_ts, h, if_neg hts]
            exact hm_lookup_set_self m.gauges name _ g h
          · simp only [gauge_update]
            omega
      · cases hl : hm_lookup m.gauges n with
        | none =>
            refine ⟨g, ?_, le_refl _⟩
            simp only [metrics_apply, metrics_set_gauge_ts, hl]
            exact hm_lookup_append_left m.gauges _ name g h
        | some g3 =>
            by_cases hts : ts < g3.timestamp_ms
            · refine ⟨g, ?_, le_refl _⟩
              simpa [metrics_apply, metrics_set_gauge_ts, hl, hts] using h
            · refine ⟨g, ?_, le_refl _⟩
              simp only [metrics_apply, metrics_set_gauge_ts, hl, if_neg hts]
              rw [hm_lookup_set_ne m.gauges n name _ hn]
              exact h

theorem gauge_ts_mono_all (ops : List mop) (m : metrics) (name : String) (g : gauge)
    (h : hm_lookup m.gauges name = some g) :
    ∃ g2, hm_lookup (metrics_apply_all m ops).gauges name = some g2 ∧
      g.timestamp_ms ≤ g2.timestamp_ms := by
  induction ops generalizing m g with
  | nil => exact ⟨g, h, le_refl _⟩
  | cons op ops ih =>
      obtain ⟨g1, h1, hle1⟩ := gauge_ts_step m op name g h
      obtain ⟨g2, h2, hle2⟩ := ih (metrics_apply m op) g1 h1
      exact ⟨g2, h2, le_trans hle1 hle2⟩

/-- C2: a timestamped set on an existing gauge whose timestamp is strictly
older than the stored one is rejected with a non-zero result and leaves the
whole metrics state unchanged; consequently the stored timestamp_ms of a
named gauge is monotonically non-decreasing over any operation sequence. -/
theorem claim_C2_gauge_ts_reject :
    (∀ (m : metrics) (name : String) (val : ℚ) (delta : Bool) (user user_flags ts : ℕ)
      (g : gauge), hm_lookup m.gauges name = some g → ts < g.timestamp_ms →
      metrics_set_gauge_ts m name val delta user user_flags ts = (m, 1)) ∧
    (∀ (m : metrics) (ops : List mop) (name : String) (g g2 : gauge),
      hm_lookup m.gauges name = some g →
      hm_lookup (metrics_apply_all m ops).gauges name = some g2 →
      g.timestamp_ms ≤ g2.timestamp_ms) := by
  constructor
  · intro m name val delta user user_flags ts g h hts
    simp [metrics_set_gauge_ts, h, hts]
  · intro m ops name g g2 h h2
    obtain ⟨g3, h3, hle⟩ := gauge_ts_mono_all ops m name g h
    rw [h3] at h2
    cases h2
    exact hle

/-- The gauge demo of the spec: an empty orchestrator, then
set("x", 5, delta=false, ts=10). -/
def gauge_demo_m0 : metrics := metrics_empty (1 / 100) [1 / 2] [] 12 100

/-- After the first gauge set: the gauge "x" exists with value 5. -/
def gauge_demo_m1 : metrics := (metrics_set_gauge_ts gauge_demo_m0 "x" 5 false 0 0 10).1

/-- After the second gauge set("x", 3, delta=true, ts=11). -/
def gauge_demo_m2 : metrics := (metrics_set_gauge_ts gauge_demo_m1 "x" 3 true 0 0 11).1

theorem gauge_demo_m1_gauges :
    gauge_demo_m1.gauges =
      [("x", { value := 5, prev_value := 5, user := 0, user_flags := 0, timestamp_ms := 10 })] :=
  rfl

theorem gauge_demo_m2_gauges :
    gauge_demo_m2.gauges =
      [("x", { value := 8, prev_value := 5, user := 0, user_flags := 0, timestamp_ms := 11 })] := by
  show (metrics_set_gauge_ts gauge_demo_m1 "x" 3 true 0 0 11).1.gauges = _
  rw [metrics_set_gauge_ts]
  rw [gauge_demo_m1_gauges]
  simp only [hm_lookup]
  norm_num [hm_set, gauge_update]

/-- C8: updating an existing gauge with a non-older timestamp succeeds with
prev_value set to the old value, the value replaced (or incremented when
delta) and user, user_flags, timestamp_ms updated; in particular
set("x",5,delta=false,ts=10) then set("x",3,delta=true,ts=11) yields value=8
and prev_value=5. -/
theorem claim_C8_gauge_update :
    (∀ (m : metrics) (name : String) (val : ℚ) (delta : Bool) (user user_flags ts : ℕ)
      (g : gauge), hm_lookup m.gauges name = some g → g.timestamp_ms ≤ ts →
      (metrics_set_gauge_ts m name val delta user user_flags ts).2 = 0 ∧
      hm_lookup (metrics_set_gauge_ts m name val delta user user_flags ts).1.gauges name =
        some { value := if delta then g.value + val else val, prev_value := g.value,
               user := user, user_flags := user_flags, timestamp_ms := ts }) ∧
    hm_lookup gauge_demo_m2.gauges "x" =
      some { value := 8, prev_value := 5, user := 0, user_flags := 0, timestamp_ms := 11 } := by
  constructor
  · intro m name val delta user user_flags ts g h hle
    have hts : ¬ ts < g.timestamp_ms := not_lt.mpr hle
    refine ⟨?_, ?_⟩
    · simp [metrics_set_gauge_ts, h, hts]
    · simp only [metrics_set_gauge_ts, h, if_neg hts]
      exact hm_lookup_set_self m.gauges name _ g h
  · rw [gauge_demo_m2_gauges]
    simp [hm_lookup]

/-- Witness for C8: the in-range update of the demo succeeds. -/
theorem claim_C8_witness :
    (metrics_set_gauge_ts gauge_demo_m1 "x" 3 true 0 0 11).2 = 0 :=
  (claim_C8_gauge_update.1 gauge_demo_m1 "x" 3 true 0 0 11
    { value := 5, prev_value := 5, user := 0, user_flags := 0, timestamp_ms := 10 }
    (by rw [gauge_demo_m1_gauges]; simp [hm_lookup]) (by norm_num)).1

/-- Witness for C2: the older-timestamped set on the demo gauge is rejected
with the state unchanged. -/
theorem claim_C2_witness :
    metrics_set_gauge_ts gauge_demo_m2 "x" 100 false 0 0 5 = (gauge_demo_m2, 1) :=
  claim_C2_gauge_ts_reject.1 gauge_demo_m2 "x" 100 false 0 0 5
    { value := 8, prev_value := 5, user := 0, user_flags := 0, timestamp_ms := 11 }
    (by rw [gauge_demo_m2_gauges]; simp [hm_lookup]) (by norm_num)

theorem filter_map_const_true {α β : Type} (l : List α) (f : α → β) (p : β → Bool)
    (h : ∀ a, p (f a) = true) : (l.map f).filter p = l.map f := by
  induction l with
  | nil => rfl
  | cons a l ih => simp [h, ih]

theorem filter_map_const_false {α β : Type} (l : List α) (f : α → β) (p : β → Bool)
    (h : ∀ a, p (f a) = false) : (l.map f).filter p = [] := by
  induction l with
  | nil => rfl
  | cons a l ih => simp [h, ih]

/-- C7: clear(COUNTER) empties only the counter index — the timers, sets,
gauges, key-values and the histogram configuration lookup are untouched —
and the subsequent enumeration is exactly the previous one with the counter
entries removed. -/
theorem claim_C7_clear_counters (m : metrics) :
    (metrics_clear_hash m metric_type.COUNTER).counters = [] ∧
    (metrics_clear_hash m metric_type.COUNTER).timers = m.timers ∧
    (metrics_clear_hash m metric_type.COUNTER).sets = m.sets ∧
    (metrics_clear_hash m metric_type.COUNTER).gauges = m.gauges ∧
    (metrics_clear_hash m metric_type.COUNTER).kv_vals = m.kv_vals ∧
    (metrics_clear_hash m metric_type.COUNTER).histograms = m.histograms ∧
    metrics_entries (metrics_clear_hash m metric_type.COUNTER) =
      (metrics_entries m).filter (fun e => decide (e.ty ≠ metric_type.COUNTER)) := by
  refine ⟨rfl, rfl, rfl, rfl, rfl, rfl, ?_⟩
  simp only [metrics_entries, metrics_clear_hash, List.filter_append]
  rw [filter_map_const_true _ _ _ (fun kv => rfl),
    filter_map_const_false _ _ _ (fun p => rfl),
    filter_map_const_true _ _ _ (fun p => rfl),
    filter_map_const_true _ _ _ (fun p => rfl),
    filter_map_const_true _ _ _ (fun p => rfl)]
  simp

/-- C6: init_metrics fails — returning none, hence no partially initialized
orchestrator — exactly when the quantile list is empty, some quantile lies
outside the open interval (0,1), the quantiles are unsorted, or the set
precision is outside the supported range; otherwise it succeeds with the
empty orchestrator carrying the given configuration. -/
theorem claim_C6_init_validation (timer_eps : ℚ) (quantiles : List ℚ)
    (histograms : List histogram_config) (set_precision set_max_exact : ℕ) :
    (init_metrics timer_eps quantiles histograms set_precision set_max_exact = none ↔
      (quantiles.length = 0 ∨ (∃ q ∈ quantiles, q ≤ 0 ∨ 1 ≤ q) ∨
       ¬ List.Chain' (fun a b => a ≤ b) quantiles ∨
       set_precision < HLL_MIN_PRECISION ∨ HLL_MAX_PRECISION < set_precision)) ∧
    (∀ m, init_metrics timer_eps quantiles histograms set_precision set_max_exact = some m →
      m = metrics_empty timer_eps quantiles histograms set_precision set_max_exact) := by
  constructor
  · rw [init_metrics]
    by_cases h1 : quantiles.length = 0
    · rw [if_pos h1]
      exact iff_of_true rfl (Or.inl h1)
    · rw [if_neg h1]
      by_cases h2 : ∀ q ∈ quantiles, 0 < q ∧ q < 1
      · rw [if_neg (not_not_intro h2)]
        by_cases h3 : List.Chain' (fun a b => a ≤ b) quantiles
        · rw [if_neg (not_not_intro h3)]
          by_cases h4 : set_precision < HLL_MIN_PRECISION ∨ HLL_MAX_PRECISION < set_precision
          · rw [if_pos h4]
            exact iff_of_true rfl (Or.inr (Or.inr (Or.inr h4)))
          · rw [if_neg h4]
            refine iff_of_false (by simp) ?_
            intro hor
            rcases hor with h | h | h | h
            · exact h1 h
            · obtain ⟨q, hq, hqq⟩ := h
              rcases hqq with hle | hle
              · exact absurd (h2 q hq).1 (not_lt.mpr hle)
              · exact absurd (h2 q hq).2 (not_lt.mpr hle)
            · exact h h3
            · exact h4 h
        · rw [if_pos h3]
          exact iff_of_true rfl (Or.inr (Or.inr (Or.inl h3)))
      · rw [if_pos h2]
        refine iff_of_true rfl (Or.inr (Or.inl ?_))
        push_neg at h2
        obtain ⟨q, hq, hqq⟩ := h2
        rcases le_or_lt q 0 with hle | hlt
        · exact ⟨q, hq, Or.inl hle⟩
        · exact ⟨q, hq, Or.inr (hqq hlt)⟩
  · intro m hm
    rw [init_metrics] at hm
    split_ifs at hm
    exact (Option.some.inj hm).symm

/-- Witness for C6: an empty quantile list fails, and a valid configuration
initializes to the empty orchestrator. -/
theorem claim_C6_witness :
    init_metrics 1 [] ([] : List histogram_config) 12 100 = none ∧
    metrics_empty (1 / 100) [(1 : ℚ) / 2] ([] : List histogram_config) 12 100 =
      metrics_empty (1 / 100) [(1 : ℚ) / 2] [] 12 100 :=
  ⟨(claim_C6_init_validation 1 [] [] 12 100).1.mpr (Or.inl rfl),
   (claim_C6_init_validation (1 / 100) [(1 : ℚ) / 2] [] 12 100).2
     (metrics_empty (1 / 100) [(1 : ℚ) / 2] [] 12 100)
     (by norm_num [init_metrics, HLL_MIN_PRECISION, HLL_MAX_PRECISION])⟩

theorem set_add_all_cons (me p : ℕ) (s : set_t) (v : String) (vs : List String) :
    set_add_all me p s (v :: vs) = set_add_all me p (set_add me p s v) vs := rfl

theorem set_add_all_exact (me p : ℕ) (vs : List String) :
    ∀ elems : List String, elems.Nodup →
    (elems.toFinset ∪ vs.toFinset).card ≤ me →
    ∃ elems2, set_add_all me p (set_t.exact elems) vs = set_t.exact elems2 ∧
      elems2.Nodup ∧ elems2.toFinset = elems.toFinset ∪ vs.toFinset := by
  induction vs with
  | nil => exact fun elems hnodup _ => ⟨elems, rfl, hnodup, by simp⟩
  | cons v vs ih =>
      intro elems hnodup hcard
      rw [set_add_all_cons]
      by_cases hv : v ∈ elems
      · have habsorb : elems.toFinset ∪ (v :: vs).toFinset = elems.toFinset ∪ vs.toFinset := by
          rw [List.toFinset_cons, Finset.union_insert,
            Finset.insert_eq_self.mpr (Finset.mem_union_left _ (List.mem_toFinset.mpr hv))]
        rw [set_add, if_pos hv]
        obtain ⟨elems2, heq, hnd2, hset⟩ := ih elems hnodup (by rw [← habsorb]; exact hcard)
        exact ⟨elems2, heq, hnd2, by rw [hset, ← habsorb]⟩
      · have hswap : (v :: elems).toFinset ∪ vs.toFinset = elems.toFinset ∪ (v :: vs).toFinset := by
          rw [List.toFinset_cons, List.toFinset_cons, Finset.insert_union, Finset.union_insert]
        have hlen : ¬ me < elems.length + 1 := by
          have hsub : insert v elems.toFinset ⊆ elems.toFinset ∪ (v :: vs).toFinset := by
            rw [List.toFinset_cons, Finset.union_insert]
            exact Finset.insert_subset_insert _ Finset.subset_union_left
          have hcardIns : (insert v elems.toFinset).card = elems.length + 1 := by
            rw [Finset.card_insert_of_not_mem (fun hmem => hv (List.mem_toFinset.mp hmem)),
              List.toFinset_card_of_nodup hnodup]
          have := le_trans (Finset.card_le_card hsub) hcard
          omega
        rw [set_add, if_neg hv, if_neg hlen]
        obtain ⟨elems2, heq, hnd2, hset⟩ :=
          ih (v :: elems) (List.nodup_cons.mpr ⟨hv, hnodup⟩) (by rw [hswap]; exact hcard)
        exact ⟨elems2, heq, hnd2, by rw [hset, hswap]⟩

theorem set_add_all_approx (me p : ℕ) (vs : List String) :
    ∀ regs : List ℕ, ∃ regs2,
      set_add_all me p (set_t.approx regs) vs = set_t.approx regs2 := by
  induction vs with
  | nil => exact fun regs => ⟨regs, rfl⟩
  | cons v vs ih =>
      intro regs
      rw [set_add_all_cons, set_add]
      exact ih _

/-- C4: the cardinality estimator stays in the exact phase and reports the
exact distinct count as long as the distinct-value count stays at or below
set_max_exact; a new value that would push the exact size beyond
set_max_exact converts it to the approximate register phase; and once
approximate it never returns to the exact phase over any further sequence of
added values. -/
theorem claim_C4_two_phase (set_max_exact precision : ℕ) :
    (∀ vs : List String, distinct_count vs ≤ set_max_exact →
      set_is_exact (set_add_all set_max_exact precision set_init vs) = true ∧
      set_cardinality (set_add_all set_max_exact precision set_init vs) =
        (distinct_count vs : ℚ)) ∧
    (∀ (elems : List String) (v : String), elems.Nodup → v ∉ elems →
      set_max_exact < elems.length + 1 →
      set_is_exact (set_add set_max_exact precision (set_t.exact elems) v) = false) ∧
    (∀ (regs : List ℕ) (vs : List String),
      set_is_exact (set_add_all set_max_exact precision (set_t.approx regs) vs) = false) := by
  refine ⟨?_, ?_, ?_⟩
  · intro vs hvs
    have hcard : (([] : List String).toFinset ∪ vs.toFinset).card ≤ set_max_exact := by
      rw [List.toFinset_nil, Finset.empty_union, List.card_toFinset]
      exact hvs
    obtain ⟨elems2, heq, hnd2, hset⟩ := set_add_all_exact set_max_exact precision vs [] List.nodup_nil hcard
    rw [set_init, heq]
    refine ⟨rfl, ?_⟩
    rw [set_cardinality]
    have hlen : elems2.length = distinct_count vs := by
      rw [← List.toFinset_card_of_nodup hnd2, hset, List.toFinset_nil, Finset.empty_union,
        List.card_toFinset]
      rfl
    rw [hlen]
  · intro elems v hnodup hv hlt
    rw [set_add, if_neg hv, if_pos hlt]
    rfl
  · intro regs vs
    obtain ⟨regs2, heq⟩ := set_add_all_approx set_max_exact precision vs regs
    rw [heq]
    rfl

/-- Witness for C4: with set_max_exact = 2, the stream a, b, a stays exact
with cardinality 2, the register phase is sticky, and a third distinct value
converts. -/
theorem claim_C4_witness :
    set_is_exact (set_add_all 2 4 set_init ["a", "b", "a"]) = true ∧
    set_cardinality (set_add_all 2 4 set_init ["a", "b", "a"]) =
      (distinct_count ["a", "b", "a"] : ℚ) :=
  (claim_C4_two_phase 2 4).1 ["a", "b", "a"] (by decide)

/-- The key-value entries an operation sequence inserts, in order. -/
def kv_inserts (ops : List mop) : List key_val :=
  ops.filterMap (fun op =>
    match op with
    | mop.add_sample metric_type.KEY_VAL n v => some { name := n, val := v }
    | _ => none)

/-- Projection of a visit to its key-value payload, when it is one. -/
def kv_entry (e : metric_entry) : Option key_val :=
  match e.ty, e.val with
  | metric_type.KEY_VAL, metric_value.kv v => some { name := e.name, val := v }
  | _, _ => none

/-- Projection of a visit to its (type, name) pair for the four aggregated
types; none for key-value visits. -/
def agg_pair (e : metric_entry) : Option (metric_type × String) :=
  match e.ty with
  | metric_type.KEY_VAL => none
  | _ => some (e.ty, e.name)

/-- Well-formedness of the name indices: no duplicate names per type. -/
def metrics_wf (m : metrics) : Prop :=
  (hm_keys m.counters).Nodup ∧ (hm_keys m.timers).Nodup ∧
  (hm_keys m.sets).Nodup ∧ (hm_keys m.gauges).Nodup

theorem metrics_wf_empty (timer_eps : ℚ) (quantiles : List ℚ)
    (histograms : List histogram_config) (set_precision set_max_exact : ℕ) :
    metrics_wf (metrics_empty timer_eps quantiles histograms set_precision set_max_exact) :=
  ⟨List.nodup_nil, List.nodup_nil, List.nodup_nil, List.nodup_nil⟩

theorem metrics_wf_apply (m : metrics) (op : mop) (h : metrics_wf m) :
    metrics_wf (metrics_apply m op) := by
  obtain ⟨hc, ht, hs, hg⟩ := h
  cases op with
  | add_sample ty n v =>
      cases ty with
      | UNKNOWN => exact ⟨hc, ht, hs, hg⟩
      | KEY_VAL => exact ⟨hc, ht, hs, hg⟩
      | COUNTER =>
          unfold metrics_wf
          simp only [metrics_apply, metrics_add_sample]
          exact ⟨hm_upsert_nodup _ _ _ hc, ht, hs, hg⟩
      | TIMER =>
          unfold metrics_wf
          simp only [metrics_apply, metrics_add_sample]
          exact ⟨hc, hm_upsert_nodup _ _ _ ht, hs, hg⟩
      | SET =>
          unfold metrics_wf
          simp only [metrics_apply, metrics_add_sample]
          exact ⟨hc, ht, hm_upsert_nodup _ _ _ hs, hg⟩
      | GAUGE => exact ⟨hc, ht, hs, hg⟩
      | GAUGE_DELTA => exact ⟨hc, ht, hs, hg⟩
  | set_update n v =>
      unfold metrics_wf
      simp only [metrics_apply, metrics_set_update]
      exact ⟨hc, ht, hm_upsert_nodup _ _ _ hs, hg⟩
  | set_gauge n v d u uf ts =>
      cases hl : hm_lookup m.gauges n with
      | none =>
          have hn : n ∉ hm_keys m.gauges := (hm_lookup_none_iff _ _).mp hl
          unfold metrics_wf
          simp only [metrics_apply, metrics_set_gauge_ts, hl]
          refine ⟨hc, ht, hs, ?_⟩
          simp only [hm_keys, List.map_append, List.map_cons, List.map_nil]
          rw [List.nodup_append]
          refine ⟨hg, List.nodup_singleton n, ?_⟩
          intro a ha hb
          rw [List.mem_singleton] at hb
          subst hb
          exact hn ha
      | some g =>
          by_cases hts : ts < g.timestamp_ms
          · unfold metrics_wf
            simp only [metrics_apply, metrics_set_gauge_ts, hl, if_pos hts]
            exact ⟨hc, ht, hs, hg⟩
          · unfold metrics_wf
            simp only [metrics_apply, metrics_set_gauge_ts, hl, if_neg hts]
            refine ⟨hc, ht, hs, ?_⟩
            rw [hm_keys_set]
            exact hg

theorem metrics_apply_all_cons (m : metrics) (op : mop) (ops : List mop) :
    metrics_apply_all m (op :: ops) = metrics_apply_all (metrics_apply m op) ops := rfl

theorem metrics_wf_apply_all (ops : List mop) (m : metrics) (h : metrics_wf m) :
    metrics_wf (metrics_apply_all m ops) := by
  induction ops generalizing m with
  | nil => exact h
  | cons op ops ih => exact ih (metrics_apply m op) (metrics_wf_apply m op h)

theorem metrics_apply_kv_step (m : metrics) (op : mop) :
    (metrics_apply m op).kv_vals = m.kv_vals ++ kv_inserts [op] := by
  cases op with
  | add_sample ty n v => cases ty <;> simp [metrics_apply, metrics_add_sample, kv_inserts]
  | set_update n v => simp [metrics_apply, metrics_set_update, kv_inserts]
  | set_gauge n v d u uf ts =>
      cases hl : hm_lookup m.gauges n with
      | none => simp [metrics_apply, metrics_set_gauge_ts, hl, kv_inserts]
      | some g =>
          by_cases hts : ts < g.timestamp_ms <;>
            simp [metrics_apply, metrics_set_gauge_ts, hl, hts, kv_inserts]

theorem kv_inserts_cons (op : mop) (ops : List mop) :
    kv_inserts (op :: ops) = kv_inserts [op] ++ kv_inserts ops := by
  cases op with
  | add_sample ty n v => cases ty <;> simp [kv_inserts]
  | set_update n v => simp [kv_inserts]
  | set_gauge n v d u uf ts => simp [kv_inserts]

theorem metrics_apply_all_kv (ops : List mop) (m : metrics) :
    (metrics_apply_all m ops).kv_vals = m.kv_vals ++ kv_inserts ops := by
  induction ops generalizing m with
  | nil => simp [metrics_apply_all, kv_inserts]
  | cons op ops ih =>
      rw [metrics_apply_all_cons, ih, metrics_apply_kv_step, kv_inserts_cons op ops,
        List.append_assoc]

theorem filterMap_map_none {α β γ : Type} (l : List α) (f : α → β) (g : β → Option γ)
    (h : ∀ a, g (f a) = none) : (l.map f).filterMap g = [] := by
  induction l with
  | nil => rfl
  | cons a l ih => simp [h, ih]

theorem filterMap_map_some {α β γ : Type} (l : List α) (f : α → β) (g : β → Option γ)
    (k : α → γ) (h : ∀ a, g (f a) = some (k a)) : (l.map f).filterMap g = l.map k := by
  induction l with
  | nil => rfl
  | cons a l ih => simp [h, ih]

theorem entries_kv (m : metrics) :
    (metrics_entries m).filterMap kv_entry = m.kv_vals := by
  rw [metrics_entries]
  simp only [List.filterMap_append]
  rw [filterMap_map_some m.kv_vals
      (fun kv => ({ ty := metric_type.KEY_VAL, name := kv.name, val := metric_value.kv kv.val } : metric_entry))
      kv_entry (fun kv => kv) (fun kv => rfl),
    filterMap_map_none m.counters
      (fun p => ({ ty := metric_type.COUNTER, name := p.1, val := metric_value.ctr p.2 } : metric_entry))
      kv_entry (fun p => rfl),
    filterMap_map_none m.timers
      (fun p => ({ ty := metric_type.TIMER, name := p.1, val := metric_value.tmr p.2 } : metric_entry))
      kv_entry (fun p => rfl),
    filterMap_map_none m.sets
      (fun p => ({ ty := metric_type.SET, name := p.1, val := metric_value.st p.2 } : metric_entry))
      kv_entry (fun p => rfl),
    filterMap_map_none m.gauges
      (fun p => ({ ty := metric_type.GAUGE, name := p.1, val := metric_value.gg p.2 } : metric_entry))
      kv_entry (fun p => rfl)]
  simp

theorem entries_agg_pairs (m : metrics) :
    (metrics_entries m).filterMap agg_pair =
      m.counters.map (fun p => (metric_type.COUNTER, p.1)) ++
      m.timers.map (fun p => (metric_type.TIMER, p.1)) ++
      m.sets.map (fun p => (metric_type.SET, p.1)) ++
      m.gauges.map (fun p => (metric_type.GAUGE, p.1)) := by
  rw [metrics_entries]
  simp only [List.filterMap_append]
  rw [filterMap_map_none m.kv_vals
      (fun kv => ({ ty := metric_type.KEY_VAL, name := kv.name, val := metric_value.kv kv.val } : metric_entry))
      agg_pair (fun kv => rfl),
    filterMap_map_some m.counters
      (fun p => ({ ty := metric_type.COUNTER, name := p.1, val := metric_value.ctr p.2 } : metric_entry))
      agg_pair (fun p => (metric_type.COUNTER, p.1)) (fun p => rfl),
    filterMap_map_some m.timers
      (fun p => ({ ty := metric_type.TIMER, name := p.1, val := metric_value.tmr p.2 } : metric_entry))
      agg_pair (fun p => (metric_type.TIMER, p.1)) (fun p => rfl),
    filterMap_map_some m.sets
      (fun p => ({ ty := metric_type.SET, name := p.1, val := metric_value.st p.2 } : metric_entry))
      agg_pair (fun p => (metric_type.SET, p.1)) (fun p => rfl),
    filterMap_map_some m.gauges
      (fun p => ({ ty := metric_type.GAUGE, name := p.1, val := metric_value.gg p.2 } : metric_entry))
      agg_pair (fun p => (metric_type.GAUGE, p.1)) (fun p => rfl)]
  simp [List.append_assoc]

theorem tag_pairs_nodup {α : Type} (ty : metric_type) (l : List (String × α))
    (h : (hm_keys l).Nodup) : (l.map (fun p => (ty, p.1))).Nodup := by
  have heq : l.map (fun p => (ty, p.1)) = (hm_keys l).map (fun n => (ty, n)) := by
    rw [hm_keys, List.map_map]
    rfl
  rw [heq]
  exact h.map (fun a b hab => congrArg Prod.snd hab)

theorem tag_pairs_disjoint {α β : Type} (ty1 ty2 : metric_type) (h : ty1 ≠ ty2)
    (l1 : List (String × α)) (l2 : List (String × β)) :
    List.Disjoint (l1.map (fun p => (ty1, p.1))) (l2.map (fun p => (ty2, p.1))) := by
  intro a ha hb
  obtain ⟨p, _, hp⟩ := List.mem_map.mp ha
  obtain ⟨q, _, hq⟩ := List.mem_map.mp hb
  exact h (congrArg Prod.fst (hp.trans hq.symm))

theorem iter_visits_full (cb : metric_type → String → metric_value → Int)
    (es : List metric_entry) (h : ∀ e ∈ es, cb e.ty e.name e.val = 0) :
    iter_visits cb es = es := by
  induction es with
  | nil => rfl
  | cons e es ih =>
      rw [iter_visits, if_pos (h e (List.mem_cons_self e es))]
      rw [ih (fun x hx => h x (List.mem_cons_of_mem e hx))]

theorem iter_visits_prefix_ex (cb : metric_type → String → metric_value → Int)
    (es : List metric_entry) : ∃ rest, iter_visits cb es ++ rest = es := by
  induction es with
  | nil => exact ⟨[], rfl⟩
  | cons e es ih =>
      by_cases hcb : cb e.ty e.name e.val = 0
      · obtain ⟨rest, hrest⟩ := ih
        refine ⟨rest, ?_⟩
        rw [iter_visits, if_pos hcb, List.cons_append, hrest]
      · refine ⟨es, ?_⟩
        rw [iter_visits, if_neg hcb]
        rfl

/-- The orchestrator state reached from a fresh configuration by a sequence
of ingestion operations. -/
def metrics_from (timer_eps : ℚ) (quantiles : List ℚ) (histograms : List histogram_config)
    (set_precision set_max_exact : ℕ) (ops : List mop) : metrics :=
  metrics_apply_all (metrics_empty timer_eps quantiles histograms set_precision set_max_exact)
    ops

theorem hm_lookup_some_mem {α : Type} (l : List (String × α)) (k : String) (v : α)
    (h : hm_lookup l k = some v) : k ∈ hm_keys l := by
  by_contra hk
  rw [(hm_lookup_none_iff l k).mpr hk] at h
  cases h

theorem hm_mem_upsert_iff {α : Type} (l : List (String × α)) (k n : String)
    (f : Option α → α) : n ∈ hm_keys (hm_upsert l k f) ↔ n ∈ hm_keys l ∨ n = k := by
  cases hl : hm_lookup l k with
  | none =>
      rw [hm_upsert_keys_of_none l k f hl]
      simp
  | some v =>
      rw [hm_upsert_keys_of_some l k f v hl]
      constructor
      · exact Or.inl
      · intro hor
        rcases hor with h | h
        · exact h
        · subst h
          exact hm_lookup_some_mem l n v hl

theorem keys_mem_step (m : metrics) (op : mop) (n : String) :
    (n ∈ hm_keys (metrics_apply m op).counters ↔
      n ∈ hm_keys m.counters ∨ ∃ v, op = mop.add_sample metric_type.COUNTER n v) ∧
    (n ∈ hm_keys (metrics_apply m op).timers ↔
      n ∈ hm_keys m.timers ∨ ∃ v, op = mop.add_sample metric_type.TIMER n v) ∧
    (n ∈ hm_keys (metrics_apply m op).sets ↔
      n ∈ hm_keys m.sets ∨ (∃ v, op = mop.add_sample metric_type.SET n v) ∨
        ∃ v, op = mop.set_update n v) ∧
    (n ∈ hm_keys (metrics_apply m op).gauges ↔
      n ∈ hm_keys m.gauges ∨ ∃ v d u uf ts, op = mop.set_gauge n v d u uf ts) := by
  cases op with
  | add_sample ty k v =>
      cases ty <;>
        simp [metrics_apply, metrics_add_sample, hm_mem_upsert_iff, mop.add_sample.injEq,
          eq_comm, and_or_left, exists_or]
  | set_update k v =>
      simp [metrics_apply, metrics_set_update, hm_mem_upsert_iff, mop.set_update.injEq,
        eq_comm]
  | set_gauge k v d u uf ts =>
      cases hl : hm_lookup m.gauges k with
      | none =>
          have hk : k ∉ hm_keys m.gauges := (hm_lookup_none_iff _ _).mp hl
          simp only [metrics_apply, metrics_set_gauge_ts, hl]
          refine ⟨Iff.rfl.trans (by simp), Iff.rfl.trans (by simp),
            Iff.rfl.trans (by simp), ?_⟩
          simp [hm_keys, mop.set_gauge.injEq, eq_comm]
      | some g =>
          by_cases hts : ts < g.timestamp_ms
          · simp only [metrics_apply, metrics_set_gauge_ts, hl, if_pos hts]
            refine ⟨by simp, by simp, by simp, ?_⟩
            constructor
            · exact Or.inl
            · intro hor
              rcases hor with h | ⟨v2, d2, u2, uf2, ts2, h⟩
              · exact h
              · cases h
                exact hm_lookup_some_mem m.gauges n g hl
          · simp only [metrics_apply, metrics_set_gauge_ts, hl, if_neg hts]
            rw [hm_keys_set]
            refine ⟨by simp, by simp, by simp, ?_⟩
            constructor
            · exact Or.inl
            · intro hor
              rcases hor with h | ⟨v2, d2, u2, uf2, ts2, h⟩
              · exact h
              · cases h
                exact hm_lookup_some_mem m.gauges n g hl

theorem keys_mem_all (ops : List mop) (m : metrics) (n : String) :
    (n ∈ hm_keys (metrics_apply_all m ops).counters ↔
      n ∈ hm_keys m.counters ∨ ∃ v, mop.add_sample metric_type.COUNTER n v ∈ ops) ∧
    (n ∈ hm_keys (metrics_apply_all m ops).timers ↔
      n ∈ hm_keys m.timers ∨ ∃ v, mop.add_sample metric_type.TIMER n v ∈ ops) ∧
    (n ∈ hm_keys (metrics_apply_all m ops).sets ↔
      n ∈ hm_keys m.sets ∨ (∃ v, mop.add_sample metric_type.SET n v ∈ ops) ∨
        ∃ v, mop.set_update n v ∈ ops) ∧
    (n ∈ hm_keys (metrics_apply_all m ops).gauges ↔
      n ∈ hm_keys m.gauges ∨ ∃ v d u uf ts, mop.set_gauge n v d u uf ts ∈ ops) := by
  induction ops generalizing m with
  | nil => simp [metrics_apply_all]
  | cons op ops ih =>
      rw [metrics_apply_all_cons]
      obtain ⟨ihc, iht, ihs, ihg⟩ := ih (metrics_apply m op)
      obtain ⟨stc, stt, sts, stg⟩ := keys_mem_step m op n
      refine ⟨?_, ?_, ?_, ?_⟩
      · rw [ihc, stc]
        simp only [List.mem_cons]
        constructor
        · rintro ((h | ⟨v, hv⟩) | ⟨v, hv⟩)
          · exact Or.inl h
          · exact Or.inr ⟨v, Or.inl hv.symm⟩
          · exact Or.inr ⟨v, Or.inr hv⟩
        · rintro (h | ⟨v, hv | hv⟩)
          · exact Or.inl (Or.inl h)
          · exact Or.inl (Or.inr ⟨v, hv.symm⟩)
          · exact Or.inr ⟨v, hv⟩
      · rw [iht, stt]
        simp only [List.mem_cons]
        constructor
        · rintro ((h | ⟨v, hv⟩) | ⟨v, hv⟩)
          · exact Or.inl h
          · exact Or.inr ⟨v, Or.inl hv.symm⟩
          · exact Or.inr ⟨v, Or.inr hv⟩
        · rintro (h | ⟨v, hv | hv⟩)
          · exact Or.inl (Or.inl h)
          · exact Or.inl (Or.inr ⟨v, hv.symm⟩)
          · exact Or.inr ⟨v, hv⟩
      · rw [ihs, sts]
        simp only [List.mem_cons]
        constructor
        · rintro ((h | ⟨v, hv⟩ | ⟨v, hv⟩) | ⟨v, hv⟩ | ⟨v, hv⟩)
          · exact Or.inl h
          · exact Or.inr (Or.inl ⟨v, Or.inl hv.symm⟩)
          · exact Or.inr (Or.inr ⟨v, Or.inl hv.symm⟩)
          · exact Or.inr (Or.inl ⟨v, Or.inr hv⟩)
          · exact Or.inr (Or.inr ⟨v, Or.inr hv⟩)
        · rintro (h | ⟨v, hv | hv⟩ | ⟨v, hv | hv⟩)
          · exact Or.inl (Or.inl h)
          · exact Or.inl (Or.inr (Or.inl ⟨v, hv.symm⟩))
          · exact Or.inr (Or.inl ⟨v, hv⟩)
          · exact Or.inl (Or.inr (Or.inr ⟨v, hv.symm⟩))
          · exact Or.inr (Or.inr ⟨v, hv⟩)
      · rw [ihg, stg]
        simp only [List.mem_cons]
        constructor
        · rintro ((h | ⟨v, d, u, uf, ts, hv⟩) | ⟨v, d, u, uf, ts, hv⟩)
          · exact Or.inl h
          · exact Or.inr ⟨v, d, u, uf, ts, Or.inl hv.symm⟩
          · exact Or.inr ⟨v, d, u, uf, ts, Or.inr hv⟩
        · rintro (h | ⟨v, d, u, uf, ts, hv | hv⟩)
          · exact Or.inl (Or.inl h)
          · exact Or.inl (Or.inr ⟨v, d, u, uf, ts, hv.symm⟩)
          · exact Or.inr ⟨v, d, u, uf, ts, hv⟩

theorem mem_tag_pairs {α : Type} (ty : metric_type) (l : List (String × α)) (n : String) :
    (ty, n) ∈ l.map (fun p => (ty, p.1)) ↔ n ∈ hm_keys l := by
  rw [hm_keys]
  constructor
  · intro h
    obtain ⟨p, hp, hpe⟩ := List.mem_map.mp h
    exact List.mem_map.mpr ⟨p, hp, congrArg Prod.snd hpe⟩
  · intro h
    obtain ⟨p, hp, hpe⟩ := List.mem_map.mp h
    exact List.mem_map.mpr ⟨p, hp, by rw [hpe]⟩

theorem not_mem_tag_pairs {α : Type} (ty ty2 : metric_type) (h : ty ≠ ty2)
    (l : List (String × α)) (n : String) : (ty, n) ∉ l.map (fun p => (ty2, p.1)) := by
  intro hmem
  obtain ⟨p, _, hp⟩ := List.mem_map.mp hmem
  exact h (congrArg Prod.fst hp).symm

theorem entries_pair_mem (m : metrics) (n : String) :
    ((metric_type.COUNTER, n) ∈ (metrics_entries m).filterMap agg_pair ↔
      n ∈ hm_keys m.counters) ∧
    ((metric_type.TIMER, n) ∈ (metrics_entries m).filterMap agg_pair ↔
      n ∈ hm_keys m.timers) ∧
    ((metric_type.SET, n) ∈ (metrics_entries m).filterMap agg_pair ↔
      n ∈ hm_keys m.sets) ∧
    ((metric_type.GAUGE, n) ∈ (metrics_entries m).filterMap agg_pair ↔
      n ∈ hm_keys m.gauges) := by
  rw [entries_agg_pairs]
  simp only [List.mem_append, mem_tag_pairs]
  refine ⟨?_, ?_, ?_, ?_⟩
  · constructor
    · rintro (((h | h) | h) | h)
      · exact h
      · exact absurd h (not_mem_tag_pairs _ _ (by intro hx; cases hx) _ _)
      · exact absurd h (not_mem_tag_pairs _ _ (by intro hx; cases hx) _ _)
      · exact absurd h (not_mem_tag_pairs _ _ (by intro hx; cases hx) _ _)
    · intro h
      exact Or.inl (Or.inl (Or.inl h))
  · constructor
    · rintro (((h | h) | h) | h)
      · exact absurd h (not_mem_tag_pairs _ _ (by intro hx; cases hx) _ _)
      · exact h
      · exact absurd h (not_mem_tag_pairs _ _ (by intro hx; cases hx) _ _)
      · exact absurd h (not_mem_tag_pairs _ _ (by intro hx; cases hx) _ _)
    · intro h
      exact Or.inl (Or.inl (Or.inr h))
  · constructor
    · rintro (((h | h) | h) | h)
      · exact absurd h (not_mem_tag_pairs _ _ (by intro hx; cases hx) _ _)
      · exact absurd h (not_mem_tag_pairs _ _ (by intro hx; cases hx) _ _)
      · exact h
      · exact absurd h (not_mem_tag_pairs _ _ (by intro hx; cases hx) _ _)
    · intro h
      exact Or.inl (Or.inr h)
  · constructor
    · rintro (((h | h) | h) | h)
      · exact absurd h (not_mem_tag_pairs _ _ (by intro hx; cases hx) _ _)
      · exact absurd h (not_mem_tag_pairs _ _ (by intro hx; cases hx) _ _)
      · exact absurd h (not_mem_tag_pairs _ _ (by intro hx; cases hx) _ _)
      · exact h
    · intro h
      exact Or.inr h

theorem iter_visits_halt (cb : metric_type → String → metric_value → Int)
    (es : List metric_entry) :
    ∀ e ∈ (iter_visits cb es).dropLast, cb e.ty e.name e.val = 0 := by
  induction es with
  | nil => intro e he; cases he
  | cons a es ih =>
      intro e he
      rw [iter_visits] at he
      by_cases hcb : cb a.ty a.name a.val = 0
      · rw [if_pos hcb] at he
        cases heq : iter_visits cb es with
        | nil =>
            rw [heq] at he
            cases he
        | cons b l =>
            rw [heq, List.dropLast_cons₂] at he
            rcases List.mem_cons.mp he with h | h
            · subst h
              exact hcb
            · exact ih e (heq ▸ h)
      · rw [if_neg hcb] at he
        cases he

/-- C5: after any sequence of ingestion operations, the enumeration holds
exactly one entry per distinct (type, name) pair for counters, timers, sets
and gauges — no duplicates, and a pair is present exactly when an operation
ingested it — and exactly one entry per key-value insertion, duplicates
preserved in insertion order; iteration visits a prefix of the enumeration,
all of it when the callback keeps returning zero, and a visit is followed by
further visits only when its callback result was zero. -/
theorem claim_C5_iterate (timer_eps : ℚ) (quantiles : List ℚ)
    (histograms : List histogram_config) (set_precision set_max_exact : ℕ)
    (ops : List mop) (cb : metric_type → String → metric_value → Int) :
    ((metrics_entries (metrics_from timer_eps quantiles histograms set_precision set_max_exact
        ops)).filterMap agg_pair).Nodup ∧
    (∀ n : String,
      ((metric_type.COUNTER, n) ∈ (metrics_entries (metrics_from timer_eps quantiles
          histograms set_precision set_max_exact ops)).filterMap agg_pair ↔
        ∃ v, mop.add_sample metric_type.COUNTER n v ∈ ops) ∧
      ((metric_type.TIMER, n) ∈ (metrics_entries (metrics_from timer_eps quantiles
          histograms set_precision set_max_exact ops)).filterMap agg_pair ↔
        ∃ v, mop.add_sample metric_type.TIMER n v ∈ ops) ∧
      ((metric_type.SET, n) ∈ (metrics_entries (metrics_from timer_eps quantiles
          histograms set_precision set_max_exact ops)).filterMap agg_pair ↔
        (∃ v, mop.add_sample metric_type.SET n v ∈ ops) ∨
          ∃ v, mop.set_update n v ∈ ops) ∧
      ((metric_type.GAUGE, n) ∈ (metrics_entries (metrics_from timer_eps quantiles
          histograms set_precision set_max_exact ops)).filterMap agg_pair ↔
        ∃ v d u uf ts, mop.set_gauge n v d u uf ts ∈ ops)) ∧
    (metrics_entries (metrics_from timer_eps quantiles histograms set_precision set_max_exact
        ops)).filterMap kv_entry = kv_inserts ops ∧
    (∃ rest, metrics_iter (metrics_from timer_eps quantiles histograms set_precision
        set_max_exact ops) cb ++ rest =
      metrics_entries (metrics_from timer_eps quantiles histograms set_precision set_max_exact
        ops)) ∧
    ((∀ e ∈ metrics_entries (metrics_from timer_eps quantiles histograms set_precision
        set_max_exact ops), cb e.ty e.name e.val = 0) →
      metrics_iter (metrics_from timer_eps quantiles histograms set_precision set_max_exact
        ops) cb =
      metrics_entries (metrics_from timer_eps quantiles histograms set_precision set_max_exact
        ops)) ∧
    (∀ e ∈ (metrics_iter (metrics_from timer_eps quantiles histograms set_precision
        set_max_exact ops) cb).dropLast, cb e.ty e.name e.val = 0) := by
  have hwf : metrics_wf (metrics_from timer_eps quantiles histograms set_precision
      set_max_exact ops) :=
    metrics_wf_apply_all ops _
      (metrics_wf_empty timer_eps quantiles histograms set_precision set_max_exact)
  obtain ⟨hc, ht, hs, hg⟩ := hwf
  refine ⟨?_, ?_, ?_, ?_, ?_, ?_⟩
  · rw [entries_agg_pairs]
    rw [List.append_assoc, List.append_assoc]
    rw [List.nodup_append]
    refine ⟨tag_pairs_nodup _ _ hc, ?_, ?_⟩
    · rw [List.nodup_append]
      refine ⟨tag_pairs_nodup _ _ ht, ?_, ?_⟩
      · rw [List.nodup_append]
        exact ⟨tag_pairs_nodup _ _ hs, tag_pairs_nodup _ _ hg,
          tag_pairs_disjoint _ _ (by intro hx; cases hx) _ _⟩
      · rw [List.disjoint_append_right]
        exact ⟨tag_pairs_disjoint _ _ (by intro hx; cases hx) _ _,
          tag_pairs_disjoint _ _ (by intro hx; cases hx) _ _⟩
    · rw [List.disjoint_append_right, List.disjoint_append_right]
      exact ⟨tag_pairs_disjoint _ _ (by intro hx; cases hx) _ _,
        tag_pairs_disjoint _ _ (by intro hx; cases hx) _ _,
        tag_pairs_disjoint _ _ (by intro hx; cases hx) _ _⟩
  · intro n
    obtain ⟨hc2, ht2, hs2, hg2⟩ := entries_pair_mem (metrics_from timer_eps quantiles
      histograms set_precision set_max_exact ops) n
    obtain ⟨hkc, hkt, hks, hkg⟩ := keys_mem_all ops
      (metrics_empty timer_eps quantiles histograms set_precision set_max_exact) n
    refine ⟨?_, ?_, ?_, ?_⟩
    · rw [hc2, metrics_from, hkc]
      simp [metrics_empty, hm_keys]
    · rw [ht2, metrics_from, hkt]
      simp [metrics_empty, hm_keys]
    · rw [hs2, metrics_from, hks]
      simp [metrics_empty, hm_keys]
    · rw [hg2, metrics_from, hkg]
      simp [metrics_empty, hm_keys]
  · rw [entries_kv, metrics_from, metrics_apply_all_kv]
    rfl
  · exact iter_visits_prefix_ex cb _
  · intro hall
    exact iter_visits_full cb _ hall
  · exact iter_visits_halt cb _

/-- Witness for C5: with an always-zero callback and one key-value
insertion, iteration visits the whole enumeration. -/
theorem claim_C5_witness :
    metrics_iter (metrics_from 1 [] [] 12 100 [mop.add_sample metric_type.KEY_VAL "k" 7])
        (fun _t _n _v => 0) =
      metrics_entries (metrics_from 1 [] [] 12 100
        [mop.add_sample metric_type.KEY_VAL "k" 7]) :=
  (claim_C5_iterate 1 [] [] 12 100 [mop.add_sample metric_type.KEY_VAL "k" 7]
    (fun _t _n _v => 0)).2.2.2.2.1 (fun _e _he => rfl)

/-- Witness for C3: with samples 1, 2 the bounds hold for the sample 1 and
the count is 2. -/
theorem claim_C3_witness :
    (counter_min (counter_add_all init_counter [1, 2]) ≤ 1 ∧
      1 ≤ counter_max (counter_add_all init_counter [1, 2])) ∧
    counter_count (counter_add_all init_counter [1, 2]) = 2 :=
  ⟨(claim_C3_counter_invariants [1, 2]).1 1 (List.mem_cons_self 1 [2]),
   (claim_C3_counter_invariants [1, 2]).2⟩

end statsite
